import Mathlib

/-!
Formal model of the experience-replay core of the repository
(src/buffer.py): the uniform ring buffer `ReplayBuffer`, the flat-array
prioritized buffer `PrioritizedReplayBuffer`, and the `SumTree` with its
`PERBufferSumTree` wrapper.  Numeric values are modelled over `ℚ` (exact
arithmetic); the float `**` operator with a non-integer exponent is carried
as an abstract function parameter `pw`.  Randomness is modelled by passing
the would-be random draws as explicit inputs.
-/

/-- Failure modes of the Python methods, as they surface to the caller:
`typeError` (invalid keyword argument), `indexError` (numpy out-of-bounds
index), `insufficientData` (the sum-tree variant's
`assert self.tree.n_entries >= batch_size`), `outOfDraws` (model artifact:
the explicit list of random draws was exhausted before the sampling loop
filled its batch). -/
inductive PyErr
  | typeError
  | indexError
  | insufficientData
  | outOfDraws
  deriving DecidableEq

/-- `ReplayBuffer` (buffer.py lines 5-52).  The five parallel numpy arrays
`states/actions/rewards/next_states/dones` are always written and read at
the same indices, so they are modelled as one store of abstract transition
payloads `α`.  `position` and `size` are as in the source. -/
structure ReplayBuffer (α : Type) where
  capacity : ℕ
  store : ℕ → α
  position : ℕ
  size : ℕ

/-- `ReplayBuffer.__init__`: zeroed arrays (payload `d`), `position = 0`,
`size = 0`. -/
def ReplayBuffer.init (capacity : ℕ) (d : α) : ReplayBuffer α :=
  ⟨capacity, fun _ => d, 0, 0⟩

/-- `ReplayBuffer.push` for a single transition (the `state.ndim == 3`
path, lines 19-37): the destination index is
`(np.arange(1) + position) % capacity = position % capacity`; then
`position = (position + 1) % capacity` and `size = min(size + 1, capacity)`. -/
def ReplayBuffer.push (b : ReplayBuffer α) (x : α) : ReplayBuffer α :=
  let idx := b.position % b.capacity
  { b with
    store := fun s => if s = idx then x else b.store s
    position := (b.position + 1) % b.capacity
    size := min (b.size + 1) b.capacity }

/-- A sequence of single-transition pushes. -/
def ReplayBuffer.pushAll (b : ReplayBuffer α) (xs : List α) : ReplayBuffer α :=
  xs.foldl ReplayBuffer.push b

/-- The set of values `np.random.randint(low, high)` can produce: integers
in `[low, high)`, the upper bound exclusive.  (Recorded for reference: line
40 of the source would draw from `randintSupport 0 (size - 1)` were its
keyword arguments accepted.) -/
def randintSupport (low high : ℤ) : Finset ℤ := Finset.Ico low high

/-- `ReplayBuffer.sample` (lines 39-49).  Its first statement is
`np.random.randint(0, self.size - 1, batch_size, replace=False)`;
numpy's `randint` accepts no `replace` keyword, so every call raises
`TypeError` before anything is drawn.  The batch-size argument is kept for
signature fidelity. -/
def ReplayBuffer.sample (_b : ReplayBuffer α) (_batchSize : ℕ) :
    Except PyErr (List ℕ) :=
  .error .typeError

/-! ### The flat-array prioritized buffer (`PrioritizedReplayBuffer`) -/

/-- `PrioritizedReplayBuffer` (lines 54-97): the ring buffer extended with a
numpy priority array of length `capacity` (zero-initialized), the fixed
exponent `alpha`, and the running scalar `max_priority`. -/
structure PrioritizedReplayBuffer (α : Type) where
  capacity : ℕ
  store : ℕ → α
  position : ℕ
  size : ℕ
  alpha : ℚ
  priorities : List ℚ
  max_priority : ℚ

/-- `PrioritizedReplayBuffer.__init__` (lines 55-59): parent init plus
`priorities = np.zeros(capacity)` and `max_priority = 1.0`. -/
def PrioritizedReplayBuffer.init (capacity : ℕ) (alpha : ℚ) (d : α) :
    PrioritizedReplayBuffer α :=
  ⟨capacity, fun _ => d, 0, 0, alpha, List.replicate capacity 0, 1⟩

/-- `PrioritizedReplayBuffer.push` for a single transition (lines 61-66):
the parent class push, then `priorities[(np.arange(1) + start) % capacity]
= max_priority` where `start` is the position before the push. -/
def PrioritizedReplayBuffer.push (b : PrioritizedReplayBuffer α) (x : α) :
    PrioritizedReplayBuffer α :=
  let idx := b.position % b.capacity
  { b with
    store := fun s => if s = idx then x else b.store s
    position := (b.position + 1) % b.capacity
    size := min (b.size + 1) b.capacity
    priorities := b.priorities.set idx b.max_priority }

/-- numpy 1-D scalar indexed assignment `l[i] = v`: an integer index
addresses slot `i` when `0 ≤ i < len`, silently wraps to slot `len + i`
when `-len ≤ i < 0`, and raises `IndexError` otherwise. -/
def npSet (l : List ℚ) (i : ℤ) (v : ℚ) : Option (List ℚ) :=
  if 0 ≤ i ∧ i < (l.length : ℤ) then some (l.set i.toNat v)
  else if -(l.length : ℤ) ≤ i ∧ i < 0 then some (l.set ((l.length : ℤ) + i).toNat v)
  else none

/-- `PrioritizedReplayBuffer.update_priorities` (lines 93-97): for each
`(idx, prio)` pair in order, `priority = min(abs(prio) + 1e-6, 1.0)`, then
`priorities[idx] = priority` (numpy indexing as in `npSet`), then
`max_priority = max(max_priority, priority)`.  The Python loop mutates the
buffer in place, so when a write raises `IndexError` the earlier pairs'
writes persist: the final state is returned together with the error, if
any. -/
def PrioritizedReplayBuffer.update_priorities (b : PrioritizedReplayBuffer α) :
    List (ℤ × ℚ) → PrioritizedReplayBuffer α × Option PyErr
  | [] => (b, none)
  | (idx, prio) :: rest =>
    let priority := min (|prio| + 1 / 1000000) 1
    match npSet b.priorities idx priority with
    | none => (b, some .indexError)
    | some ps =>
      PrioritizedReplayBuffer.update_priorities
        { b with priorities := ps, max_priority := max b.max_priority priority } rest

/-- Lines 69-76 of `PrioritizedReplayBuffer.sample`: `prios` is
`priorities[:size]`, `probs = prios ** alpha` (the float power carried as
the abstract `pw`), and then either the division-by-zero fallback
`probs = np.ones_like(probs) / size` when `probs.sum() == 0`, or the
normalization `probs /= probs.sum()`. -/
def flatProbs (pw : ℚ → ℚ → ℚ) (prios : List ℚ) (alpha : ℚ) (size : ℕ) : List ℚ :=
  let probs := prios.map fun p => pw p alpha
  if probs.sum = 0 then probs.map fun _ => 1 / (size : ℚ)
  else probs.map fun p => p / probs.sum

/-- `PrioritizedReplayBuffer.sample` (lines 68-91): builds the probability
vector, then line 78 calls
`np.random.randint(0, self.size - 1, batch_size, p=probs, replace=False)`;
numpy's `randint` accepts neither the `p` nor the `replace` keyword, so
every call raises `TypeError` there, whatever the state and arguments. -/
def PrioritizedReplayBuffer.sample (pw : ℚ → ℚ → ℚ) (b : PrioritizedReplayBuffer α)
    (_batchSize : ℕ) (_beta : ℚ) : Except PyErr (List ℕ × List ℚ) :=
  let _probs := flatProbs pw (b.priorities.take b.size) b.alpha b.size
  .error .typeError

/-! ### The sum tree, index-to-value view (in-bounds executions) -/

/-- The Python parent index `(idx - 1) // 2`, for `idx ≥ 1` (natural
subtraction; Python floor division agrees there). -/
def parentIdx (i : ℕ) : ℕ := (i - 1) / 2

/-- `j` is reached from `L` by applying `parentIdx` zero or more times. -/
def ancOrSelf (L j : ℕ) : Prop := ∃ k, parentIdx^[k] L = j

/-- `j` is reached from `L` by applying `parentIdx` one or more times: the
nodes `_propagate` visits when started from `L ≥ 1`. -/
def strictAnc (L j : ℕ) : Prop := ∃ k, 1 ≤ k ∧ parentIdx^[k] L = j

/-- `SumTree._propagate` (lines 107-111) on the index-to-value view of the
tree array: add `change` at `parent = (idx - 1) // 2` and recurse while the
parent is not the root.  This is faithful for `idx ≥ 1`, the only indices
the class itself ever passes (leaves are `≥ capacity - 1 ≥ 1` once
`capacity ≥ 2`); at `idx = 0` the Python code computes `parent = -1`, adds
at `tree[-1]`, and recurses forever - that divergent case is modelled
separately below by `propagateFuel`. -/
def propagate (t : ℕ → ℚ) (idx : ℕ) (c : ℚ) : ℕ → ℚ :=
  if parentIdx idx = 0 then fun j => if j = parentIdx idx then t j + c else t j
  else propagate (fun j => if j = parentIdx idx then t j + c else t j) (parentIdx idx) c
termination_by idx
decreasing_by simp only [parentIdx] at *; omega

/-- `SumTree.update` (lines 133-136) on the index view:
`change = p - tree[idx]`, then `tree[idx] = p`, then propagate the change. -/
def updateTree (t : ℕ → ℚ) (idx : ℕ) (p : ℚ) : ℕ → ℚ :=
  propagate (fun j => if j = idx then p else t j) idx (p - t idx)

/-- A sequence of `update(leaf, priority)` calls, applied left to right. -/
def applyUpdates (t : ℕ → ℚ) (us : List (ℕ × ℚ)) : ℕ → ℚ :=
  us.foldl (fun tr u => updateTree tr u.1 u.2) t

/-- The all-zero tree array `np.zeros(2 * capacity - 1)` of `SumTree.__init__`. -/
def zeroTree : ℕ → ℚ := fun _ => 0

/-- The sum-tree invariant on internal nodes: every internal node `i`
(those with `i < capacity - 1`) holds the sum of its two children. -/
def internalOk (capacity : ℕ) (t : ℕ → ℚ) : Prop :=
  ∀ i, i + 1 < capacity → t i = t (2 * i + 1) + t (2 * i + 2)

/-- The sum of the leaf cells, indices `capacity - 1 .. 2 * capacity - 2`. -/
def leafSum (capacity : ℕ) (t : ℕ → ℚ) : ℚ :=
  Finset.sum (Finset.Icc (capacity - 1) (2 * capacity - 2)) t

/-- `SumTree` (lines 99-141).  The tree array is the index-to-value view
`tree`, the payload list `data` likewise; `write` and `n_entries` as in
the source. -/
structure SumTree (α : Type) where
  capacity : ℕ
  tree : ℕ → ℚ
  data : ℕ → Option α
  write : ℕ
  n_entries : ℕ

/-- `SumTree.__init__`: zero tree, empty (`None`) data, write = n_entries = 0. -/
def SumTree.init (capacity : ℕ) : SumTree α :=
  ⟨capacity, zeroTree, fun _ => none, 0, 0⟩

/-- `SumTree.total` (lines 123-124): the root cell. -/
def SumTree.total (st : SumTree α) : ℚ := st.tree 0

/-- `SumTree.update` (lines 133-136). -/
def SumTree.update (st : SumTree α) (idx : ℕ) (p : ℚ) : SumTree α :=
  { st with tree := updateTree st.tree idx p }

/-- `SumTree.add` (lines 126-131): write the payload at ring slot `write`,
update leaf `write + capacity - 1`, advance `write` mod capacity, clamp
`n_entries` at capacity. -/
def SumTree.add (st : SumTree α) (p : ℚ) (x : α) : SumTree α :=
  let idx := st.write + st.capacity - 1
  let st' := SumTree.update
    { st with data := fun j => if j = st.write then some x else st.data j } idx p
  { st' with
    write := (st.write + 1) % st.capacity
    n_entries := min (st.n_entries + 1) st.capacity }

/-- `SumTree._retrieve` (lines 113-121): from node `idx`, stop when the
left child index `2*idx+1` falls outside the array (length
`2*capacity - 1`); otherwise descend left when `s <= tree[left]`, else
right with `s - tree[left]`. -/
def SumTree.retrieve (st : SumTree α) (idx : ℕ) (s : ℚ) : ℕ :=
  if 2 * st.capacity - 1 ≤ 2 * idx + 1 then idx
  else if s ≤ st.tree (2 * idx + 1) then st.retrieve (2 * idx + 1) s
  else st.retrieve (2 * idx + 2) (s - st.tree (2 * idx + 1))
termination_by 2 * st.capacity - idx
decreasing_by all_goals omega

/-- `SumTree.get` (lines 138-141): retrieve from the root; the data index
is `idx - capacity + 1` (leaves only, so the natural subtraction
`idx - (capacity - 1)` agrees with Python). -/
def SumTree.get (st : SumTree α) (s : ℚ) : ℕ × ℚ × Option α :=
  let idx := st.retrieve 0 s
  (idx, st.tree idx, st.data (idx - (st.capacity - 1)))

/-! ### The sum-tree prioritized buffer (`PERBufferSumTree`) -/

/-- `PERBufferSumTree` (lines 143-193). -/
structure PERBufferSumTree (α : Type) where
  tree : SumTree α
  alpha : ℚ
  epsilon : ℚ
  max_priority : ℚ

/-- `PERBufferSumTree.__init__` (lines 144-149): fresh tree,
`epsilon = 1e-6`, `max_priority = 1.0`. -/
def PERBufferSumTree.init (maxLen : ℕ) (alpha : ℚ) : PERBufferSumTree α :=
  ⟨SumTree.init maxLen, alpha, 1 / 1000000, 1⟩

/-- `PERBufferSumTree.push` (lines 151-153): add the transition with the
current `max_priority`. -/
def PERBufferSumTree.push (b : PERBufferSumTree α) (x : α) : PERBufferSumTree α :=
  { b with tree := b.tree.add b.max_priority x }

/-- `np.max` / `.max()` of a nonempty vector (numpy raises on an empty
one; the `[]` case is an arbitrary default). -/
def npMax : List ℚ → ℚ
  | [] => 0
  | x :: xs => xs.foldl max x

/-- Lines 171-175 of `PERBufferSumTree.sample`: `P_norm = P / total`,
`weights = (N * P_norm) ** (-beta)` (float power carried as `pw`),
`weights /= weights.max()`. -/
def sumTreeWeights (pw : ℚ → ℚ → ℚ) (n : ℕ) (total beta : ℚ) (ps : List ℚ) : List ℚ :=
  let pnorm := ps.map fun p => p / total
  let ws := pnorm.map fun x => pw ((n : ℚ) * x) (-beta)
  ws.map fun w => w / npMax ws

/-- The `while len(batch) < batch_size` loop of `PERBufferSumTree.sample`
(lines 161-168): draw `s`, call `get`, keep the entry when its payload is
not `None`.  The would-be outputs of `random.uniform(0, total)` are the
explicit `draws` list; if it runs out before the batch fills, the model
reports `outOfDraws` (the Python loop would keep drawing). -/
def PERBufferSumTree.sampleLoop (b : PERBufferSumTree α) (k : ℕ) :
    List ℚ → List (ℕ × ℚ × α) → Except PyErr (List (ℕ × ℚ × α))
  | [], acc => if k ≤ acc.length then .ok acc.reverse else .error .outOfDraws
  | s :: rest, acc =>
    if k ≤ acc.length then .ok acc.reverse
    else match b.tree.get s with
      | (_, _, none) => b.sampleLoop k rest acc
      | (idx, p, some x) => b.sampleLoop k rest ((idx, p, x) :: acc)

/-- `PERBufferSumTree.sample` (lines 155-184): the occupancy assertion
`assert self.tree.n_entries >= batch_size` ("Not enough in buffer", the
spec's `InsufficientDataError`), the collection loop, and the
importance-weight computation. -/
def PERBufferSumTree.sample (pw : ℚ → ℚ → ℚ) (b : PERBufferSumTree α)
    (batchSize : ℕ) (beta : ℚ) (draws : List ℚ) :
    Except PyErr (List (ℕ × ℚ × α) × List ℚ) :=
  if b.tree.n_entries < batchSize then .error .insufficientData
  else match b.sampleLoop batchSize draws [] with
    | .error e => .error e
    | .ok batch =>
      .ok (batch, sumTreeWeights pw b.tree.n_entries b.tree.total beta
        (batch.map fun r => r.2.1))

/-- `PERBufferSumTree.update_priorities` (lines 189-193): for each pair,
`new_p = (abs(p) + epsilon) ** alpha` (float power carried as `pw`), then
`tree.update(idx, new_p)` and `max_priority = max(max_priority, new_p)`.
The indices here are raw tree indices, as returned by `sample`. -/
def PERBufferSumTree.update_priorities (pw : ℚ → ℚ → ℚ) (b : PERBufferSumTree α) :
    List (ℕ × ℚ) → PERBufferSumTree α
  | [] => b
  | (idx, p) :: rest =>
    let new_p := pw (|p| + b.epsilon) b.alpha
    PERBufferSumTree.update_priorities pw
      { b with tree := b.tree.update idx new_p
               max_priority := max b.max_priority new_p } rest

/-! ### Python-faithful list model of the tree array

Used for the executions the index-view model above cannot represent
faithfully: negative indices (Python wrap-around) and the unbounded
recursion of `_propagate` when it is started from the root.  `fuel` bounds
the recursion depth; `none` means the call raised (`IndexError`) or did
not complete within `fuel` recursive calls (Python raises
`RecursionError` once the depth reaches `sys.getrecursionlimit()`,
1000 by default). -/

/-- Python list index resolution: `0 ≤ i < len` addresses `i`,
`-len ≤ i < 0` addresses `len + i`, anything else is `IndexError`. -/
def pyIdx (n : ℕ) (i : ℤ) : Option ℕ :=
  if 0 ≤ i ∧ i < (n : ℤ) then some i.toNat
  else if -(n : ℤ) ≤ i ∧ i < 0 then some ((n : ℤ) + i).toNat
  else none

/-- Python `l[i]` on a list of floats. -/
def pyGetQ (l : List ℚ) (i : ℤ) : Option ℚ :=
  (pyIdx l.length i).bind fun k => l[k]?

/-- Python `l[i] = v`. -/
def pySetQ (l : List ℚ) (i : ℤ) (v : ℚ) : Option (List ℚ) :=
  (pyIdx l.length i).map fun k => l.set k v

/-- `SumTree._propagate` on the raw list, with Python's `(idx - 1) // 2`
(floor division on integers) and Python list indexing. -/
def propagateFuel : ℕ → List ℚ → ℤ → ℚ → Option (List ℚ)
  | 0, _, _, _ => none
  | fuel + 1, t, idx, c =>
    let parent := Int.fdiv (idx - 1) 2
    match pyGetQ t parent with
    | none => none
    | some v =>
      match pySetQ t parent (v + c) with
      | none => none
      | some t' => if parent = 0 then some t' else propagateFuel fuel t' parent c

/-- `SumTree.update` on the raw list. -/
def updateFuel (fuel : ℕ) (t : List ℚ) (idx : ℤ) (p : ℚ) : Option (List ℚ) :=
  match pyGetQ t idx with
  | none => none
  | some old =>
    match pySetQ t idx p with
    | none => none
    | some t1 => propagateFuel fuel t1 idx (p - old)

/-- `PERBufferSumTree.update_priorities` on the raw list model: the state is
the pair (tree array, max_priority). -/
def updatePrioritiesFuel (pw : ℚ → ℚ → ℚ) (fuel : ℕ) (alpha eps : ℚ) :
    List ℚ × ℚ → List (ℤ × ℚ) → Option (List ℚ × ℚ)
  | st, [] => some st
  | (t, maxP), (idx, p) :: rest =>
    let new_p := pw (|p| + eps) alpha
    match updateFuel fuel t idx new_p with
    | none => none
    | some t' => updatePrioritiesFuel pw fuel alpha eps (t', max maxP new_p) rest

/-! ### Reachable states through the public API -/

/-- States of the flat prioritized buffer reachable through its public
API from a fresh buffer of positive capacity `N` and exponent `a`:
any sequence of single-transition pushes and `update_priorities` calls
(the state a call leaves behind is kept even when the call raises;
`sample` never mutates the buffer - line 78 raises before anything is
assigned - so it contributes no step). -/
inductive FlatReach (N : ℕ) (a : ℚ) (d : α) : PrioritizedReplayBuffer α → Prop
  | init : 1 ≤ N → FlatReach N a d (PrioritizedReplayBuffer.init N a d)
  | push {b} (x : α) : FlatReach N a d b → FlatReach N a d (b.push x)
  | update {b} (pairs : List (ℤ × ℚ)) : FlatReach N a d b →
      FlatReach N a d (b.update_priorities pairs).1

/-- States of the sum-tree prioritized buffer reachable through its public
API from a fresh buffer of capacity `N ≥ 2`: pushes, and
`update_priorities` calls whose indices are leaf tree indices (the only
indices `sample` ever hands back).  `sample` itself never mutates the
state. -/
inductive TreeReach (pw : ℚ → ℚ → ℚ) (N : ℕ) (a : ℚ) : PERBufferSumTree α → Prop
  | init : 2 ≤ N → TreeReach pw N a (PERBufferSumTree.init N a)
  | push {b} (x : α) : TreeReach pw N a b → TreeReach pw N a (b.push x)
  | update {b} (pairs : List (ℕ × ℚ)) : TreeReach pw N a b →
      (∀ pr ∈ pairs, N - 1 ≤ pr.1 ∧ pr.1 ≤ 2 * N - 2) →
      TreeReach pw N a (b.update_priorities pw pairs)

/-! ### Concrete states used by witnesses and counterexamples -/

/-- A concrete stand-in for the float power function: `pw0 a b = a`.  It
maps positive arguments to positive values, as the real `**` does on the
inputs the code feeds it. -/
def pw0 : ℚ → ℚ → ℚ := fun a _ => a

/-- Capacity-4 uniform buffer holding 4 pushed transitions. -/
def uniBuf4 : ReplayBuffer ℚ := (ReplayBuffer.init 4 0).pushAll [1, 2, 3, 4]

/-- Capacity-4 uniform buffer holding only 2 pushed transitions. -/
def uniBuf2 : ReplayBuffer ℚ := (ReplayBuffer.init 4 0).pushAll [1, 2]

/-- Capacity-2 uniform buffer after three pushes 10, 20, 30. -/
def c2CexBuf : ReplayBuffer ℚ := (ReplayBuffer.init 2 0).pushAll [10, 20, 30]

/-- A full capacity-4 flat prioritized buffer, all priorities 1. -/
def flatBuf4 : PrioritizedReplayBuffer ℚ :=
  ⟨4, fun _ => 0, 0, 4, 3 / 5, [1, 1, 1, 1], 1⟩

/-- A capacity-4 flat prioritized buffer whose two occupied slots both
carry priority 0 (the all-priorities-zero condition of the fallback). -/
def c8ZeroBuf : PrioritizedReplayBuffer ℚ :=
  ⟨4, fun _ => 0, 2, 2, 3 / 5, [0, 0, 0, 0], 1⟩

/-- The tree array of a capacity-4 `SumTree` after four `add`s at priority
1: leaves `[1,1,1,1]` (cells 3..6), internal sums `[4,2,2]` (cells 0..2). -/
def st4 : List ℚ := [4, 2, 2, 1, 1, 1, 1]

/-- A capacity-4 sum-tree buffer holding 4 transitions at priority 1
(the index-view counterpart of `st4`). -/
def treeBuf4 : PERBufferSumTree ℚ :=
  ⟨⟨4, fun j => st4.getD j 0, fun j => if j < 4 then some (j : ℚ) else none, 0, 4⟩,
    3 / 5, 1 / 1000000, 1⟩

/-! ### Theorems -/

theorem replay_pushAll_spec (N : ℕ) (d : α) (xs : List α) :
    ((ReplayBuffer.init N d).pushAll xs).size = min xs.length N ∧
    ((ReplayBuffer.init N d).pushAll xs).position = xs.length % N ∧
    ((ReplayBuffer.init N d).pushAll xs).capacity = N ∧
    ∀ j, j < xs.length → xs.length - j ≤ N →
      ((ReplayBuffer.init N d).pushAll xs).store (j % N) = xs.getD j d := by
  induction xs using List.reverseRecOn with
  | nil =>
    refine ⟨by simp [ReplayBuffer.pushAll, ReplayBuffer.init], ?_, rfl, ?_⟩
    · simp [ReplayBuffer.pushAll, ReplayBuffer.init]
    · intro j hj
      simp at hj
  | append_singleton xs x ih =>
    obtain ⟨hsize, hpos, hcap, hstore⟩ := ih
    have hfold : (ReplayBuffer.init N d).pushAll (xs ++ [x]) =
        ((ReplayBuffer.init N d).pushAll xs).push x := by
      simp [ReplayBuffer.pushAll]
    set b := (ReplayBuffer.init N d).pushAll xs with hb
    set k := xs.length with hk
    refine ⟨?_, ?_, ?_, ?_⟩
    · rw [hfold]
      simp only [ReplayBuffer.push, hsize, hcap, List.length_append,
        List.length_singleton]
      omega
    · rw [hfold]
      simp only [ReplayBuffer.push, hpos, hcap, List.length_append,
        List.length_singleton]
      exact Nat.mod_add_mod k N 1
    · rw [hfold]
      simp only [ReplayBuffer.push, hcap]
    · intro j hj hle
      rw [hfold]
      simp only [List.length_append, List.length_singleton] at hj hle
      have hwrite : b.position % b.capacity = k % N := by
        rw [hpos, hcap, Nat.mod_mod_of_dvd _ (dvd_refl N)]
      show (if j % N = b.position % b.capacity then x else b.store (j % N)) =
        (xs ++ [x]).getD j d
      rw [hwrite]
      rcases Nat.lt_or_ge j k with hjk | hjk
      · have hne : j % N ≠ k % N := by
          intro heq
          have hmod : j ≡ k [MOD N] := heq
          have hdvd : N ∣ k - j := (Nat.modEq_iff_dvd' (Nat.le_of_lt hjk)).mp hmod
          have : N ≤ k - j := Nat.le_of_dvd (by omega) hdvd
          omega
        rw [if_neg hne, hstore j hjk (by omega),
          List.getD_append _ _ _ _ (by omega)]
      · have hjeq : j = k := by omega
        subst hjeq
        rw [if_pos rfl, List.getD_append_right _ _ _ _ (by omega)]
        simp

/-- C2 (amended): after `k ≥ N` single pushes into an empty capacity-`N`
uniform buffer, `len() = N`, `position = k % N`, `size` is clamped at `N`,
and the transition stored at physical slot `(k - N + s) % N` (for
`s < N`) is the `(k - N + s)`-th pushed transition: the oldest entries are
overwritten in FIFO ring order.  (The slot holding push `k - N + s` is
`(k - N + s) % N`, which equals `s` itself only when `N` divides `k`.) -/
theorem C2_ring_fifo (N : ℕ) (d : α) (xs : List α) (hN : 1 ≤ N)
    (hk : N ≤ xs.length) :
    ((ReplayBuffer.init N d).pushAll xs).size = N ∧
    ((ReplayBuffer.init N d).pushAll xs).position = xs.length % N ∧
    ∀ s, s < N →
      ((ReplayBuffer.init N d).pushAll xs).store ((xs.length - N + s) % N) =
        xs.getD (xs.length - N + s) d := by
  obtain ⟨hsize, hpos, _, hstore⟩ := replay_pushAll_spec N d xs
  refine ⟨by omega, hpos, fun s hs => ?_⟩
  exact hstore (xs.length - N + s) (by omega) (by omega)

theorem C2_ring_fifo_witness :
    ((1 ≤ 2 ∧ 2 ≤ ([10, 20, 30] : List ℚ).length) ∧
      (((ReplayBuffer.init 2 (0 : ℚ)).pushAll [10, 20, 30]).size = 2 ∧
       ((ReplayBuffer.init 2 (0 : ℚ)).pushAll [10, 20, 30]).position =
         ([10, 20, 30] : List ℚ).length % 2 ∧
       ∀ s, s < 2 →
         ((ReplayBuffer.init 2 (0 : ℚ)).pushAll [10, 20, 30]).store
             ((([10, 20, 30] : List ℚ).length - 2 + s) % 2) =
           ([10, 20, 30] : List ℚ).getD (([10, 20, 30] : List ℚ).length - 2 + s) 0)) :=
  ⟨⟨by decide, by decide⟩, C2_ring_fifo 2 0 [10, 20, 30] (by decide) (by decide)⟩

/-- C2 counterexample: with capacity `N = 2` and `k = 3` single pushes
(payloads 10, 20, 30), physical slot 0 holds the third push (30), not the
`(k - N + 0) = 1`-st push (20) the claim names; the claim's slot formula
only matches when `N` divides `k`. -/
theorem C2_counterexample :
    c2CexBuf.size = 2 ∧ c2CexBuf.store 0 = 30 ∧ ¬ c2CexBuf.store 0 = 20 := by
  decide

/-- C3 (code bug): on a capacity-4 uniform buffer holding 4 transitions,
`sample(2)` raises `TypeError` (numpy's `randint` accepts no
`replace=False` / `p=` keyword) instead of returning distinct indices, and
the flat priority sampler fails the same way; moreover the draw range the
call names, `randint(0, size - 1)`, excludes the newest valid slot
`size - 1 = 3`, so that slot could never be drawn even under the intended
semantics. -/
theorem C3_sample_typeerror :
    uniBuf4.sample 2 = .error .typeError ∧
    PrioritizedReplayBuffer.sample pw0 flatBuf4 2 (2 / 5) = .error .typeError ∧
    uniBuf4.size = 4 ∧
    ((3 : ℤ) ∉ randintSupport 0 ((uniBuf4.size : ℤ) - 1)) :=
  ⟨rfl, rfl, by decide, by decide⟩

/-- C4 (amended): only the sum-tree variant guards occupancy - when
`n_entries < batch_size` its `sample` fails on the assertion (the
`InsufficientDataError` of the spec).  The uniform and flat-array variants
perform no occupancy check at all: every one of their `sample` calls fails
with `TypeError` from the invalid `randint` keywords, whatever the
occupancy. -/
theorem C4_occupancy_guard (pw : ℚ → ℚ → ℚ) (bt : PERBufferSumTree β)
    (k : ℕ) (beta : ℚ) (draws : List ℚ) (h : bt.tree.n_entries < k) :
    PERBufferSumTree.sample pw bt k beta draws = .error .insufficientData ∧
    (∀ (bu : ReplayBuffer α) m, bu.sample m = .error .typeError) ∧
    (∀ (bp : PrioritizedReplayBuffer α) m beta2,
      PrioritizedReplayBuffer.sample pw bp m beta2 = .error .typeError) :=
  ⟨by rw [PERBufferSumTree.sample, if_pos h], fun _ _ => rfl, fun _ _ _ => rfl⟩

theorem C4_occupancy_guard_witness :
    (treeBuf4.tree.n_entries < 5) ∧
    (PERBufferSumTree.sample pw0 treeBuf4 5 (2 / 5) [] = .error .insufficientData ∧
     (∀ (bu : ReplayBuffer ℚ) m, bu.sample m = .error .typeError) ∧
     (∀ (bp : PrioritizedReplayBuffer ℚ) m beta2,
       PrioritizedReplayBuffer.sample pw0 bp m beta2 = .error .typeError)) :=
  ⟨by decide, C4_occupancy_guard pw0 treeBuf4 5 (2 / 5) [] (by decide)⟩

/-- C4 counterexample: a uniform buffer with 2 occupied slots, asked for a
batch of 5, does not fail with the insufficient-data error the claim
names - it fails with `TypeError`, the same way every call does. -/
theorem C4_counterexample :
    uniBuf2.size < 5 ∧ uniBuf2.sample 5 = .error .typeError ∧
    PyErr.typeError ≠ PyErr.insufficientData :=
  ⟨by decide, rfl, by decide⟩

/-- C8 (amended): the division-by-zero guard is real - when the summed
powered priorities are zero the probability vector is replaced by the
uniform vector `1/size` over the occupied slots - but the sample call
itself still always fails at the subsequent `randint` call (`TypeError`),
so no sample is ever returned, zero total or not. -/
theorem C8_zero_total_fallback (pw : ℚ → ℚ → ℚ) (prios : List ℚ) (alpha : ℚ)
    (size : ℕ) (b : PrioritizedReplayBuffer α) (k : ℕ) (beta : ℚ)
    (h : (prios.map fun p => pw p alpha).sum = 0) :
    flatProbs pw prios alpha size = List.replicate prios.length (1 / (size : ℚ)) ∧
    PrioritizedReplayBuffer.sample pw b k beta = .error .typeError := by
  refine ⟨?_, rfl⟩
  rw [flatProbs]
  simp only [h, eq_self_iff_true, if_true, List.map_const', List.length_map]

theorem C8_zero_total_fallback_witness :
    ((([0, 0] : List ℚ).map fun p => pw0 p (3 / 5)).sum = 0 ∧
     (flatProbs pw0 [0, 0] (3 / 5) 2 =
        List.replicate ([0, 0] : List ℚ).length (1 / (2 : ℚ)) ∧
      PrioritizedReplayBuffer.sample pw0 c8ZeroBuf 1 (2 / 5) = .error .typeError)) :=
  ⟨by simp [pw0], C8_zero_total_fallback pw0 [0, 0] (3 / 5) 2 c8ZeroBuf 1 (2 / 5) (by simp [pw0])⟩

/-- C8 counterexample: on a buffer whose two occupied slots both have
priority zero, `sample` still fails (`TypeError`), so "sample does not
fail" is false - the fallback only shapes the probability vector, it does
not make the call succeed. -/
theorem C8_counterexample :
    ((c8ZeroBuf.priorities.take c8ZeroBuf.size).map fun p => pw0 p c8ZeroBuf.alpha).sum = 0 ∧
    PrioritizedReplayBuffer.sample pw0 c8ZeroBuf 1 (2 / 5) = .error .typeError :=
  ⟨by simp [c8ZeroBuf, pw0], rfl⟩

/-- C9 (amended): `update_priorities` performs no bounds check of its own.
A single-pair call whose index falls outside numpy's accepted window
`[-len, len)` returns the numpy `IndexError` (and, in a longer call, the
writes of the earlier pairs persist); an index in `[-len, 0)` is silently
written at slot `len + idx` with no error at all. -/
theorem C9_unchecked_indices (b : PrioritizedReplayBuffer α) (i : ℤ) (e : ℚ)
    (hout : i < -(b.priorities.length : ℤ) ∨ (b.priorities.length : ℤ) ≤ i) :
    (b.update_priorities [(i, e)]).2 = some PyErr.indexError := by
  have h1 : ¬ (0 ≤ i ∧ i < (b.priorities.length : ℤ)) := by omega
  have h2 : ¬ (-(b.priorities.length : ℤ) ≤ i ∧ i < 0) := by omega
  simp [PrioritizedReplayBuffer.update_priorities, npSet, h1, h2]

theorem C9_unchecked_indices_witness :
    (((4 : ℤ) < -(flatBuf4.priorities.length : ℤ) ∨
       (flatBuf4.priorities.length : ℤ) ≤ 4) ∧
     (flatBuf4.update_priorities [((4 : ℤ), 2)]).2 = some PyErr.indexError) :=
  ⟨by decide, C9_unchecked_indices flatBuf4 4 2 (by decide)⟩

/-- C9 counterexample: `update_priorities([-1], [0.5])` on a full
capacity-4 flat buffer raises nothing and silently writes the wrapped slot
3: the priorities become `[1, 1, 1, 0.500001]`.  The claim's "fails with
IndexOutOfRange ... never silently writes through a negative index" is
false. -/
theorem C9_counterexample :
    (flatBuf4.update_priorities [(-1, 1 / 2)]).2 = none ∧
    (flatBuf4.update_priorities [(-1, 1 / 2)]).1.priorities =
      [1, 1, 1, 500001 / 1000000] := by
  have hmin : min (|(1 : ℚ) / 2| + 1 / 1000000) 1 = 500001 / 1000000 := by
    rw [abs_of_pos (by norm_num), min_eq_left (by norm_num)]
    norm_num
  have hset : npSet flatBuf4.priorities (-1) (min (|(1 : ℚ) / 2| + 1 / 1000000) 1) =
      some [1, 1, 1, 500001 / 1000000] := by
    rw [hmin, npSet]
    norm_num [flatBuf4]
    rfl
  simp only [PrioritizedReplayBuffer.update_priorities, hset]
  exact ⟨trivial, trivial⟩

/-! ### Ancestor structure of the implicit binary tree -/

theorem parentIdx_lt {i : ℕ} (h : 1 ≤ i) : parentIdx i < i := by
  simp only [parentIdx]; omega

theorem parentIdx_le (i : ℕ) : parentIdx i ≤ i := by
  simp only [parentIdx]; omega

theorem parentIdx_left (i : ℕ) : parentIdx (2 * i + 1) = i := by
  simp only [parentIdx]; omega

theorem parentIdx_right (i : ℕ) : parentIdx (2 * i + 2) = i := by
  simp only [parentIdx]; omega

theorem parentIdx_zero : parentIdx 0 = 0 := rfl

theorem iterate_parentIdx_zero (m : ℕ) : parentIdx^[m] 0 = 0 :=
  Function.iterate_fixed parentIdx_zero m

theorem iterate_parentIdx_le (k L : ℕ) : parentIdx^[k] L ≤ L := by
  induction k generalizing L with
  | zero => simp
  | succ k ih =>
    rw [Function.iterate_succ_apply]
    exact le_trans (ih _) (parentIdx_le L)

theorem iterate_parentIdx_lt {k L : ℕ} (hk : 1 ≤ k) (hL : 1 ≤ L) :
    parentIdx^[k] L < L := by
  obtain ⟨m, rfl⟩ : ∃ m, k = m + 1 := ⟨k - 1, by omega⟩
  rw [Function.iterate_succ_apply]
  exact lt_of_le_of_lt (iterate_parentIdx_le m _) (parentIdx_lt hL)

theorem iterate_parentIdx_antitone {k m : ℕ} (L : ℕ) (h : k ≤ m) :
    parentIdx^[m] L ≤ parentIdx^[k] L := by
  obtain ⟨d, rfl⟩ : ∃ d, m = d + k := ⟨m - k, by omega⟩
  rw [Function.iterate_add_apply]
  exact iterate_parentIdx_le d _

theorem strictAnc_irrefl {L : ℕ} (h : 1 ≤ L) : ¬ strictAnc L L := by
  rintro ⟨k, hk, heq⟩
  exact absurd heq (Nat.ne_of_lt (iterate_parentIdx_lt hk h))

theorem strictAnc_lt {L j : ℕ} (hL : 1 ≤ L) (h : strictAnc L j) : j < L := by
  obtain ⟨k, hk, heq⟩ := h
  exact heq ▸ iterate_parentIdx_lt hk hL

theorem strictAnc_le_parent {L j : ℕ} (h : strictAnc L j) : j ≤ parentIdx L := by
  obtain ⟨k, hk, heq⟩ := h
  calc j = parentIdx^[k] L := heq.symm
    _ ≤ parentIdx^[1] L := iterate_parentIdx_antitone L hk
    _ = parentIdx L := by simp

theorem strictAnc_zero {L : ℕ} (h : 1 ≤ L) : strictAnc L 0 := by
  have hex : ∀ n, ∃ k, parentIdx^[k] n = 0 := by
    intro n
    induction n using Nat.strong_induction_on with
    | _ n ih =>
      rcases Nat.eq_zero_or_pos n with hz | hpos
      · exact ⟨0, by simp [hz]⟩
      · obtain ⟨k, hk⟩ := ih (parentIdx n) (parentIdx_lt hpos)
        exact ⟨k + 1, by rw [Function.iterate_succ_apply, hk]⟩
  obtain ⟨k, hk⟩ := hex L
  have hk1 : 1 ≤ k := by
    rcases Nat.eq_zero_or_pos k with hz | hpos
    · subst hz; simp at hk; omega
    · exact hpos
  exact ⟨k, hk1, hk⟩

theorem ancOrSelf_iff {L j : ℕ} : ancOrSelf L j ↔ j = L ∨ strictAnc L j := by
  constructor
  · rintro ⟨k, heq⟩
    rcases Nat.eq_zero_or_pos k with hz | hpos
    · subst hz; simp at heq; exact Or.inl heq.symm
    · exact Or.inr ⟨k, hpos, heq⟩
  · rintro (rfl | ⟨k, _, heq⟩)
    · exact ⟨0, rfl⟩
    · exact ⟨k, heq⟩

theorem strictAnc_iff_step {idx : ℕ} (h : 1 ≤ idx) (j : ℕ) :
    strictAnc idx j ↔ j = parentIdx idx ∨ strictAnc (parentIdx idx) j := by
  constructor
  · rintro ⟨k, hk, heq⟩
    rcases Nat.lt_or_ge k 2 with hk2 | hk2
    · have : k = 1 := by omega
      subst this
      simp at heq
      exact Or.inl heq.symm
    · refine Or.inr ⟨k - 1, by omega, ?_⟩
      have : k - 1 + 1 = k := by omega
      calc parentIdx^[k - 1] (parentIdx idx)
          = parentIdx^[k - 1 + 1] idx := (Function.iterate_succ_apply parentIdx (k - 1) idx).symm
        _ = parentIdx^[k] idx := by rw [this]
        _ = j := heq
  · rintro (rfl | ⟨k, hk, heq⟩)
    · exact ⟨1, le_refl 1, by simp⟩
    · exact ⟨k + 1, by omega, by rw [Function.iterate_succ_apply]; exact heq⟩

theorem ancOrSelf_parent_step {L c : ℕ} (h : ancOrSelf L c) :
    ancOrSelf L (parentIdx c) := by
  obtain ⟨k, heq⟩ := h
  exact ⟨k + 1, by rw [Function.iterate_succ_apply', heq]⟩

theorem ancOrSelf_of_left {L i : ℕ} (h : ancOrSelf L (2 * i + 1)) : ancOrSelf L i := by
  have := ancOrSelf_parent_step h
  rwa [parentIdx_left] at this

theorem ancOrSelf_of_right {L i : ℕ} (h : ancOrSelf L (2 * i + 2)) : ancOrSelf L i := by
  have := ancOrSelf_parent_step h
  rwa [parentIdx_right] at this

theorem ancOrSelf_to_child {L i : ℕ} (h : ancOrSelf L i) (hne : i ≠ L) :
    ancOrSelf L (2 * i + 1) ∨ ancOrSelf L (2 * i + 2) := by
  obtain ⟨k, heq⟩ := h
  induction k using Nat.strong_induction_on generalizing i with
  | _ k ih =>
    have hk1 : 1 ≤ k := by
      rcases Nat.eq_zero_or_pos k with hz | hpos
      · subst hz; simp at heq; exact absurd heq.symm hne
      · exact hpos
    set c := parentIdx^[k - 1] L with hc
    have hpc : parentIdx c = i := by
      have : k - 1 + 1 = k := by omega
      calc parentIdx c = parentIdx^[k - 1 + 1] L := by
            rw [Function.iterate_succ_apply', hc]
        _ = parentIdx^[k] L := by rw [this]
        _ = i := heq
    by_cases hci : c = i
    · exact ih (k - 1) (by omega) hne (hc.symm.trans hci)
    · have hc1 : 1 ≤ c := by
        rcases Nat.eq_zero_or_pos c with hz | hpos
        · exfalso
          rw [hz, parentIdx_zero] at hpc
          exact hci (by omega)
        · exact hpos
      have : c = 2 * i + 1 ∨ c = 2 * i + 2 := by
        simp only [parentIdx] at hpc
        omega
      rcases this with h1 | h1
      · exact Or.inl ⟨k - 1, h1 ▸ hc.symm⟩
      · exact Or.inr ⟨k - 1, h1 ▸ hc.symm⟩

theorem ancOrSelf_children_exclusive {L i : ℕ} :
    ¬ (ancOrSelf L (2 * i + 1) ∧ ancOrSelf L (2 * i + 2)) := by
  rintro ⟨⟨k1, h1⟩, ⟨k2, h2⟩⟩
  rcases Nat.lt_or_ge k1 k2 with hlt | hge
  · have := iterate_parentIdx_antitone L (Nat.le_of_lt hlt)
    rw [h1, h2] at this
    omega
  · have hk : k2 + 1 ≤ k1 := by
      rcases Nat.eq_or_lt_of_le hge with heq | hlt
      · exfalso
        rw [heq] at h2
        rw [h1] at h2
        omega
      · omega
    have hstep : parentIdx^[k2 + 1] L = i := by
      rw [Function.iterate_succ_apply', h2, parentIdx_right]
    have := iterate_parentIdx_antitone L hk
    rw [h1, hstep] at this
    omega

/-! ### What `_propagate` and `update` do to the tree cells -/

theorem propagate_spec (idx : ℕ) (h : 1 ≤ idx) (t : ℕ → ℚ) (c : ℚ) (j : ℕ) :
    (strictAnc idx j → propagate t idx c j = t j + c) ∧
    (¬ strictAnc idx j → propagate t idx c j = t j) := by
  induction idx using Nat.strong_induction_on generalizing t with
  | _ idx ih =>
    rw [propagate]
    by_cases hp : parentIdx idx = 0
    · simp only [if_pos hp]
      have hanc : strictAnc idx j ↔ j = 0 := by
        constructor
        · rintro ⟨k, hk, heq⟩
          obtain ⟨m, rfl⟩ : ∃ m, k = m + 1 := ⟨k - 1, by omega⟩
          rw [Function.iterate_succ_apply, hp, iterate_parentIdx_zero] at heq
          exact heq.symm
        · rintro rfl
          exact ⟨1, le_refl 1, by simpa using hp⟩
      constructor
      · intro hsa
        rw [hanc] at hsa
        subst hsa
        rw [if_pos hp.symm]
      · intro hsa
        rw [hanc] at hsa
        rw [if_neg (fun hj => hsa (hj.trans hp))]
    · rw [if_neg hp]
      have hp1 : 1 ≤ parentIdx idx := Nat.one_le_iff_ne_zero.mpr hp
      obtain ⟨ih1, ih2⟩ :=
        ih (parentIdx idx) (parentIdx_lt h) hp1
          (fun j' => if j' = parentIdx idx then t j' + c else t j')
      by_cases hj : j = parentIdx idx
      · refine ⟨fun _ => ?_,
          fun hsa => absurd ((strictAnc_iff_step h j).mpr (Or.inl hj)) hsa⟩
        rw [ih2 (by rw [hj]; exact strictAnc_irrefl hp1)]
        rw [if_pos hj]
      · constructor
        · intro hsa
          have hsp : strictAnc (parentIdx idx) j := by
            rcases (strictAnc_iff_step h j).mp hsa with h1 | h1
            · exact absurd h1 hj
            · exact h1
          rw [ih1 hsp, if_neg hj]
        · intro hsa
          have hsp : ¬ strictAnc (parentIdx idx) j := fun hc =>
            hsa ((strictAnc_iff_step h j).mpr (Or.inr hc))
          rw [ih2 hsp, if_neg hj]

theorem updateTree_apply_anc {idx : ℕ} (h : 1 ≤ idx) (t : ℕ → ℚ) (p : ℚ) (j : ℕ)
    (hanc : ancOrSelf idx j) : updateTree t idx p j = t j + (p - t idx) := by
  rw [updateTree]
  rcases ancOrSelf_iff.mp hanc with rfl | hsa
  · rw [(propagate_spec j h _ _ j).2 (strictAnc_irrefl h), if_pos rfl]
    ring
  · rw [(propagate_spec idx h _ _ j).1 hsa,
      if_neg (Nat.ne_of_lt (strictAnc_lt h hsa))]

theorem updateTree_apply_not {idx : ℕ} (h : 1 ≤ idx) (t : ℕ → ℚ) (p : ℚ) (j : ℕ)
    (hanc : ¬ ancOrSelf idx j) : updateTree t idx p j = t j := by
  rw [updateTree]
  have hns : ¬ strictAnc idx j := fun hc => hanc (ancOrSelf_iff.mpr (Or.inr hc))
  have hne : j ≠ idx := fun hc => hanc (ancOrSelf_iff.mpr (Or.inl hc))
  rw [(propagate_spec idx h _ _ j).2 hns, if_neg hne]

theorem updateTree_root {idx : ℕ} (h : 1 ≤ idx) (t : ℕ → ℚ) (p : ℚ) :
    updateTree t idx p 0 = t 0 + (p - t idx) :=
  updateTree_apply_anc h t p 0 (ancOrSelf_iff.mpr (Or.inr (strictAnc_zero h)))

theorem updateTree_leaf {idx : ℕ} (h : 1 ≤ idx) (t : ℕ → ℚ) (p : ℚ) :
    updateTree t idx p idx = p := by
  rw [updateTree_apply_anc h t p idx ⟨0, rfl⟩]
  ring

theorem internalOk_updateTree {N idx : ℕ} (hN : 2 ≤ N) (hlo : N - 1 ≤ idx)
    (hhi : idx ≤ 2 * N - 2) (t : ℕ → ℚ) (p : ℚ) (ht : internalOk N t) :
    internalOk N (updateTree t idx p) := by
  intro i hi
  have hidx1 : 1 ≤ idx := by omega
  have hneL : i ≠ idx := by omega
  have hspec := ht i hi
  by_cases hanc : ancOrSelf idx i
  · rcases ancOrSelf_to_child hanc hneL with hc1 | hc1
    · have hnc2 : ¬ ancOrSelf idx (2 * i + 2) := fun hc =>
        ancOrSelf_children_exclusive ⟨hc1, hc⟩
      rw [updateTree_apply_anc hidx1 t p i hanc,
        updateTree_apply_anc hidx1 t p _ hc1,
        updateTree_apply_not hidx1 t p _ hnc2, hspec]
      ring
    · have hnc1 : ¬ ancOrSelf idx (2 * i + 1) := fun hc =>
        ancOrSelf_children_exclusive ⟨hc, hc1⟩
      rw [updateTree_apply_anc hidx1 t p i hanc,
        updateTree_apply_not hidx1 t p _ hnc1,
        updateTree_apply_anc hidx1 t p _ hc1, hspec]
      ring
  · have hn1 : ¬ ancOrSelf idx (2 * i + 1) := fun hc => hanc (ancOrSelf_of_left hc)
    have hn2 : ¬ ancOrSelf idx (2 * i + 2) := fun hc => hanc (ancOrSelf_of_right hc)
    rw [updateTree_apply_not hidx1 t p i hanc,
      updateTree_apply_not hidx1 t p _ hn1,
      updateTree_apply_not hidx1 t p _ hn2, hspec]

theorem leafSum_updateTree {N idx : ℕ} (hN : 2 ≤ N) (hlo : N - 1 ≤ idx)
    (hhi : idx ≤ 2 * N - 2) (t : ℕ → ℚ) (p : ℚ) :
    leafSum N (updateTree t idx p) = leafSum N t + (p - t idx) := by
  have hidx1 : 1 ≤ idx := by omega
  unfold leafSum
  have hcong : ∀ L ∈ Finset.Icc (N - 1) (2 * N - 2),
      updateTree t idx p L = t L + (if L = idx then p - t idx else 0) := by
    intro L hL
    rw [Finset.mem_Icc] at hL
    by_cases hLi : L = idx
    · subst hLi
      rw [updateTree_apply_anc hidx1 t p L ⟨0, rfl⟩, if_pos rfl]
    · have hnanc : ¬ ancOrSelf idx L := by
        intro hanc
        rcases ancOrSelf_iff.mp hanc with heq | hsa
        · exact hLi heq
        · have := strictAnc_le_parent hsa
          simp only [parentIdx] at this
          omega
      rw [updateTree_apply_not hidx1 t p L hnanc, if_neg hLi, add_zero]
  rw [Finset.sum_congr rfl hcong, Finset.sum_add_distrib]
  congr 1
  rw [Finset.sum_ite_eq' (Finset.Icc (N - 1) (2 * N - 2)) idx (fun _ => p - t idx)]
  rw [if_pos (Finset.mem_Icc.mpr ⟨hlo, hhi⟩)]

theorem applyUpdates_invariant (N : ℕ) (hN : 2 ≤ N) :
    ∀ (us : List (ℕ × ℚ)) (t : ℕ → ℚ),
      (∀ u ∈ us, N - 1 ≤ u.1 ∧ u.1 ≤ 2 * N - 2) →
      internalOk N t → t 0 = leafSum N t →
      internalOk N (applyUpdates t us) ∧
      applyUpdates t us 0 = leafSum N (applyUpdates t us) := by
  intro us
  induction us with
  | nil => intro t _ h1 h2; exact ⟨h1, h2⟩
  | cons u rest ih =>
    intro t hus h1 h2
    have hu := hus u (List.mem_cons_self u rest)
    have h1' := internalOk_updateTree hN hu.1 hu.2 t u.2 h1
    have h2' : updateTree t u.1 u.2 0 = leafSum N (updateTree t u.1 u.2) := by
      rw [updateTree_root (by omega) t u.2, leafSum_updateTree hN hu.1 hu.2, h2]
    exact ih (updateTree t u.1 u.2) (fun v hv => hus v (List.mem_cons_of_mem u hv)) h1' h2'

/-- C1: on a `SumTree` of capacity `N ≥ 2` (tree array all zero at
construction), after any finite sequence of `update(leaf, priority)` calls
whose leaf indices lie in `[N-1, 2N-2]`, every internal node holds exactly
the sum of its two children, and the root cell equals the sum of all the
leaf cells - over exact arithmetic.  (`N = 1` is degenerate: the tree has no
internal node at all, and there `update`'s recursion would never terminate,
since `_propagate(0, ...)` steps to `parent = -1` forever.) -/
theorem C1_sumtree_invariant (N : ℕ) (us : List (ℕ × ℚ)) (hN : 2 ≤ N)
    (hus : ∀ u ∈ us, N - 1 ≤ u.1 ∧ u.1 ≤ 2 * N - 2) :
    internalOk N (applyUpdates zeroTree us) ∧
    applyUpdates zeroTree us 0 = leafSum N (applyUpdates zeroTree us) :=
  applyUpdates_invariant N hN us zeroTree hus
    (fun _ _ => by simp [zeroTree])
    (by simp [zeroTree, leafSum])

theorem C1_sumtree_invariant_witness :
    ((2 ≤ 2 ∧ ∀ u ∈ [((1 : ℕ), (5 : ℚ)), (2, 7), (1, 3)],
        2 - 1 ≤ u.1 ∧ u.1 ≤ 2 * 2 - 2) ∧
     (internalOk 2 (applyUpdates zeroTree [((1 : ℕ), (5 : ℚ)), (2, 7), (1, 3)]) ∧
      applyUpdates zeroTree [((1 : ℕ), (5 : ℚ)), (2, 7), (1, 3)] 0 =
        leafSum 2 (applyUpdates zeroTree [((1 : ℕ), (5 : ℚ)), (2, 7), (1, 3)]))) :=
  ⟨⟨by norm_num, by decide⟩,
    C1_sumtree_invariant 2 [((1 : ℕ), (5 : ℚ)), (2, 7), (1, 3)] (by norm_num) (by decide)⟩

/-! ### The divergent root update of the Python list model -/

theorem propagateFuel_succ (f : ℕ) (t : List ℚ) (idx : ℤ) (c : ℚ) :
    propagateFuel (f + 1) t idx c =
      match pyGetQ t (Int.fdiv (idx - 1) 2) with
      | none => none
      | some v =>
        match pySetQ t (Int.fdiv (idx - 1) 2) (v + c) with
        | none => none
        | some t' => if Int.fdiv (idx - 1) 2 = 0 then some t'
            else propagateFuel f t' (Int.fdiv (idx - 1) 2) c := rfl

/-- Started from Python index `-1` on a 7-cell tree, `_propagate` loops:
`parent = (-1 - 1) // 2 = -1` again, so no amount of fuel completes it. -/
theorem propagateFuel_neg_one (f : ℕ) : ∀ (t : List ℚ) (c : ℚ), t.length = 7 →
    propagateFuel f t (-1) c = none := by
  induction f with
  | zero => intro t c _; rfl
  | succ f ih =>
    intro t c hlen
    have h6 : 6 < t.length := by omega
    have hidx : pyIdx t.length (-1) = some 6 := by
      rw [hlen, pyIdx]
      norm_num
      rfl
    have hget : pyGetQ t (-1) = some t[6] := by
      rw [pyGetQ, hidx]
      simp [List.getElem?_eq_getElem h6]
    have hset : pySetQ t (-1) (t[6] + c) = some (t.set 6 (t[6] + c)) := by
      rw [pySetQ, hidx]
      rfl
    rw [propagateFuel_succ]
    rw [show Int.fdiv ((-1 : ℤ) - 1) 2 = -1 from by decide]
    simp only [hget, hset]
    rw [if_neg (by decide : ¬ ((-1 : ℤ) = 0))]
    exact ih (t.set 6 (t[6] + c)) c (by simp [hlen])

/-- `SumTree.update(0, q)` on the four-leaf tree never completes: the write
lands on the root, then `_propagate(0, ...)` steps to `parent = -1` and
recurses there forever (Python raises `RecursionError`). -/
theorem updateFuel_zero_idx (f : ℕ) (q : ℚ) : updateFuel f st4 0 q = none := by
  have hget : pyGetQ st4 0 = some 4 := rfl
  have hset : pySetQ st4 0 q = some (st4.set 0 q) := rfl
  rw [updateFuel]
  simp only [hget, hset]
  cases f with
  | zero => rfl
  | succ f =>
    rw [propagateFuel_succ]
    have hget1 : pyGetQ (st4.set 0 q) (Int.fdiv ((0 : ℤ) - 1) 2) = some 1 := rfl
    have hset1 : pySetQ (st4.set 0 q) (Int.fdiv ((0 : ℤ) - 1) 2) (1 + (q - 4)) =
        some ((st4.set 0 q).set 6 (1 + (q - 4))) := rfl
    simp only [hget1, hset1]
    rw [if_neg (by decide : ¬ (Int.fdiv ((0 : ℤ) - 1) 2 = 0))]
    rw [show Int.fdiv ((0 : ℤ) - 1) 2 = -1 from by decide]
    exact propagateFuel_neg_one f _ _ (by simp [st4])

/-- C5 counterexample: on the capacity-4 tree with leaf priorities
`[1,1,1,1]` (tree array `st4`, total 4), `update_priorities([0], [10.0])`
addresses tree cell 0 - the ROOT, since the method takes raw tree indices -
overwrites it, and then `_propagate` recurses forever (a `RecursionError`
in Python, `none` at every fuel here, 1000 being `sys.getrecursionlimit()`).
The call never completes, so `total()` does not increase by
`(10+eps)^alpha - previous_priority_at_0` or by anything else. -/
theorem C5_counterexample :
    updatePrioritiesFuel pw0 1000 (3 / 5) (1 / 1000000) (st4, 1) [((0 : ℤ), 10)] = none := by
  rw [updatePrioritiesFuel]
  simp only [updateFuel_zero_idx]

/-- C5 (amended): `update_priorities` takes raw TREE indices, and data slot
0 of a capacity-4 tree lives at tree index `4 - 1 = 3`.  For the addressed
LEAF index 3, `update_priorities([3], [e])` on the tree `st4` (leaves all 1,
total 4) completes, stores exactly `pw(|e| + 1e-6, alpha)` - the model of
`(abs(e) + epsilon) ** alpha` - at that leaf, and changes the root total by
exactly that new priority minus the priority previously stored there. -/
theorem C5_update_leaf_delta (pw : ℚ → ℚ → ℚ) (e alpha : ℚ) (f : ℕ) :
    updatePrioritiesFuel pw (f + 2) alpha (1 / 1000000) (st4, 1) [((3 : ℤ), e)] =
      some ([4 + (pw (|e| + 1 / 1000000) alpha - 1),
             2 + (pw (|e| + 1 / 1000000) alpha - 1), 2,
             pw (|e| + 1 / 1000000) alpha, 1, 1, 1],
            max 1 (pw (|e| + 1 / 1000000) alpha)) ∧
    4 + (pw (|e| + 1 / 1000000) alpha - 1) =
      st4.getD 0 0 + (pw (|e| + 1 / 1000000) alpha - st4.getD 3 0) :=
  ⟨rfl, rfl⟩

/-! ### What `update_priorities` writes, in both variants -/

theorem npSet_inrange (l : List ℚ) (i : ℤ) (v : ℚ) (h0 : 0 ≤ i)
    (h1 : i < (l.length : ℤ)) : npSet l i v = some (l.set i.toNat v) := by
  rw [npSet, if_pos ⟨h0, h1⟩]

theorem getD_set_self (l : List ℚ) (n : ℕ) (v : ℚ) (h : n < l.length) :
    (l.set n v).getD n 0 = v := by
  rw [List.getD_eq_getElem?_getD, List.getElem?_set_eq_of_lt v h]
  rfl

theorem getD_set_ne (l : List ℚ) {n m : ℕ} (v : ℚ) (h : n ≠ m) :
    (l.set n v).getD m 0 = l.getD m 0 := by
  rw [List.getD_eq_getElem?_getD, List.getElem?_set_ne h, ← List.getD_eq_getElem?_getD]

theorem flatUP_cons (b : PrioritizedReplayBuffer α) (i : ℤ) (e : ℚ)
    (rest : List (ℤ × ℚ)) (ps : List ℚ)
    (hset : npSet b.priorities i (min (|e| + 1 / 1000000) 1) = some ps) :
    b.update_priorities ((i, e) :: rest) =
      PrioritizedReplayBuffer.update_priorities
        { b with priorities := ps
                 max_priority := max b.max_priority (min (|e| + 1 / 1000000) 1) }
        rest := by
  rw [PrioritizedReplayBuffer.update_priorities]
  simp only [hset]

theorem flatUP_untouched (pairs : List (ℤ × ℚ)) (n : ℕ) :
    ∀ (b : PrioritizedReplayBuffer α),
      (∀ pr ∈ pairs, 0 ≤ pr.1 ∧ pr.1 < (b.priorities.length : ℤ) ∧ pr.1.toNat ≠ n) →
      (b.update_priorities pairs).1.priorities.getD n 0 = b.priorities.getD n 0 := by
  induction pairs with
  | nil => intro b _; rfl
  | cons pr0 rest ih =>
    intro b hin
    obtain ⟨i, e⟩ := pr0
    obtain ⟨h0, h1, hne⟩ := hin (i, e) (List.mem_cons_self _ _)
    rw [flatUP_cons b i e rest _ (npSet_inrange _ _ _ h0 h1)]
    rw [ih _ (fun pr hpr => by
      obtain ⟨g0, g1, g2⟩ := hin pr (List.mem_cons_of_mem _ hpr)
      exact ⟨g0, by simpa [List.length_set] using g1, g2⟩)]
    exact getD_set_ne _ _ hne

theorem flatUP_values (pairs : List (ℤ × ℚ)) :
    ∀ (b : PrioritizedReplayBuffer α),
      (∀ pr ∈ pairs, 0 ≤ pr.1 ∧ pr.1 < (b.priorities.length : ℤ)) →
      (pairs.map Prod.fst).Nodup →
      (b.update_priorities pairs).2 = none ∧
      (∀ pr ∈ pairs, (b.update_priorities pairs).1.priorities.getD pr.1.toNat 0 =
        min (|pr.2| + 1 / 1000000) 1) ∧
      (b.update_priorities pairs).1.max_priority =
        (pairs.map fun pr => min (|pr.2| + 1 / 1000000) 1).foldl max b.max_priority := by
  induction pairs with
  | nil => intro b _ _; exact ⟨rfl, fun pr hpr => absurd hpr (List.not_mem_nil _), rfl⟩
  | cons pr0 rest ih =>
    intro b hin hnd
    obtain ⟨i, e⟩ := pr0
    obtain ⟨h0, h1⟩ := hin (i, e) (List.mem_cons_self _ _)
    rw [List.map_cons] at hnd
    rw [flatUP_cons b i e rest _ (npSet_inrange _ _ _ h0 h1)]
    set b' : PrioritizedReplayBuffer α :=
      { b with priorities := b.priorities.set i.toNat (min (|e| + 1 / 1000000) 1)
               max_priority := max b.max_priority (min (|e| + 1 / 1000000) 1) } with hb'
    have hlen' : b'.priorities.length = b.priorities.length := by
      simp [hb', List.length_set]
    have hin' : ∀ pr ∈ rest, 0 ≤ pr.1 ∧ pr.1 < (b'.priorities.length : ℤ) := by
      intro pr hpr
      rw [hlen']
      exact hin pr (List.mem_cons_of_mem _ hpr)
    obtain ⟨ha, hv, hm⟩ := ih b' hin' (List.nodup_cons.mp hnd).2
    refine ⟨ha, ?_, ?_⟩
    · intro pr hpr
      rcases List.mem_cons.mp hpr with rfl | hpr'
      · show (PrioritizedReplayBuffer.update_priorities b' rest).1.priorities.getD
            i.toNat 0 = min (|e| + 1 / 1000000) 1
        have hrest : ∀ q ∈ rest, 0 ≤ q.1 ∧ q.1 < (b'.priorities.length : ℤ) ∧
            q.1.toNat ≠ i.toNat := by
          intro q hq
          refine ⟨(hin' q hq).1, (hin' q hq).2, ?_⟩
          have hnotmem : i ∉ rest.map Prod.fst := (List.nodup_cons.mp hnd).1
          have hqne : q.1 ≠ i := by
            intro hcq
            exact hnotmem (hcq ▸ List.mem_map_of_mem Prod.fst hq)
          have hq0 : 0 ≤ q.1 := (hin' q hq).1
          omega
        rw [flatUP_untouched rest i.toNat b' hrest]
        simp only [hb']
        exact getD_set_self _ _ _ (by omega)
      · exact hv pr hpr'
    · rw [hm]
      rfl

theorem treeUP_untouched (pw : ℚ → ℚ → ℚ) (pairs : List (ℕ × ℚ)) (n : ℕ) :
    ∀ (b : PERBufferSumTree α),
      (∀ pr ∈ pairs, b.tree.capacity - 1 ≤ pr.1 ∧ pr.1 ≤ 2 * b.tree.capacity - 2) →
      2 ≤ b.tree.capacity →
      b.tree.capacity - 1 ≤ n →
      (∀ pr ∈ pairs, pr.1 ≠ n) →
      (b.update_priorities pw pairs).tree.tree n = b.tree.tree n := by
  induction pairs with
  | nil => intro b _ _ _ _; rfl
  | cons pr0 rest ih =>
    intro b hin hcap hn hne
    obtain ⟨i, e⟩ := pr0
    have hi := hin (i, e) (List.mem_cons_self _ _)
    have hinei : i ≠ n := hne (i, e) (List.mem_cons_self _ _)
    rw [PERBufferSumTree.update_priorities]
    have hstep := ih
      { b with tree := b.tree.update i (pw (|e| + b.epsilon) b.alpha)
               max_priority := max b.max_priority (pw (|e| + b.epsilon) b.alpha) }
      (fun pr hpr => hin pr (List.mem_cons_of_mem _ hpr)) hcap hn
      (fun pr hpr => hne pr (List.mem_cons_of_mem _ hpr))
    rw [hstep]
    show updateTree b.tree.tree i (pw (|e| + b.epsilon) b.alpha) n = b.tree.tree n
    apply updateTree_apply_not (by omega)
    intro hanc
    rcases ancOrSelf_iff.mp hanc with heq | hsa
    · exact hinei heq.symm
    · have := strictAnc_le_parent hsa
      simp only [parentIdx] at this
      omega

theorem treeUP_values (pw : ℚ → ℚ → ℚ) (pairs : List (ℕ × ℚ)) :
    ∀ (b : PERBufferSumTree α),
      2 ≤ b.tree.capacity →
      (∀ pr ∈ pairs, b.tree.capacity - 1 ≤ pr.1 ∧ pr.1 ≤ 2 * b.tree.capacity - 2) →
      (pairs.map Prod.fst).Nodup →
      (∀ pr ∈ pairs, (b.update_priorities pw pairs).tree.tree pr.1 =
        pw (|pr.2| + b.epsilon) b.alpha) ∧
      (b.update_priorities pw pairs).max_priority =
        (pairs.map fun pr => pw (|pr.2| + b.epsilon) b.alpha).foldl max b.max_priority := by
  induction pairs with
  | nil => intro b _ _ _; exact ⟨fun pr hpr => absurd hpr (List.not_mem_nil _), rfl⟩
  | cons pr0 rest ih =>
    intro b hcap hin hnd
    obtain ⟨i, e⟩ := pr0
    have hi := hin (i, e) (List.mem_cons_self _ _)
    rw [List.map_cons] at hnd
    rw [PERBufferSumTree.update_priorities]
    obtain ⟨hv, hm⟩ := ih
      { b with tree := b.tree.update i (pw (|e| + b.epsilon) b.alpha)
               max_priority := max b.max_priority (pw (|e| + b.epsilon) b.alpha) }
      hcap (fun pr hpr => hin pr (List.mem_cons_of_mem _ hpr)) (List.nodup_cons.mp hnd).2
    refine ⟨?_, ?_⟩
    · intro pr hpr
      rcases List.mem_cons.mp hpr with rfl | hpr'
      · show (PERBufferSumTree.update_priorities pw
            { b with tree := b.tree.update i (pw (|e| + b.epsilon) b.alpha)
                     max_priority := max b.max_priority (pw (|e| + b.epsilon) b.alpha) }
            rest).tree.tree i = pw (|e| + b.epsilon) b.alpha
        have hnotmem : i ∉ rest.map Prod.fst := (List.nodup_cons.mp hnd).1
        rw [treeUP_untouched pw rest i
          { b with tree := b.tree.update i (pw (|e| + b.epsilon) b.alpha)
                   max_priority := max b.max_priority (pw (|e| + b.epsilon) b.alpha) }
          (fun q hq => hin q (List.mem_cons_of_mem _ hq)) hcap
          (show b.tree.capacity - 1 ≤ i by omega)
          (fun q hq hc => hnotmem (hc ▸ List.mem_map_of_mem Prod.fst hq))]
        show updateTree b.tree.tree i (pw (|e| + b.epsilon) b.alpha) i = _
        exact updateTree_leaf (by omega) _ _
      · exact hv pr hpr'
    · rw [hm]
      rfl

/-- C7: for every `update_priorities` call with valid in-range,
pairwise-distinct indices: the flat variant stores
`min(|td_error| + 1e-6, 1.0)` at each addressed slot - hence every stored
value lies in `[1e-6, 1]` - raising nothing; the sum-tree variant stores
exactly `(|td_error| + epsilon) ** alpha` (the abstract power `pw` of that
base) at each addressed leaf; in both variants `max_priority` becomes the
running maximum of its old value and each new priority. -/
theorem C7_priority_monotonicity :
    (∀ (α : Type) (b : PrioritizedReplayBuffer α) (pairs : List (ℤ × ℚ)),
      (∀ pr ∈ pairs, 0 ≤ pr.1 ∧ pr.1 < (b.priorities.length : ℤ)) →
      (pairs.map Prod.fst).Nodup →
      (b.update_priorities pairs).2 = none ∧
      (∀ pr ∈ pairs,
        (b.update_priorities pairs).1.priorities.getD pr.1.toNat 0 =
          min (|pr.2| + 1 / 1000000) 1 ∧
        1 / 1000000 ≤ min (|pr.2| + 1 / 1000000) 1 ∧
        min (|pr.2| + 1 / 1000000) 1 ≤ 1) ∧
      (b.update_priorities pairs).1.max_priority =
        (pairs.map fun pr => min (|pr.2| + 1 / 1000000) 1).foldl max b.max_priority) ∧
    (∀ (α : Type) (pw : ℚ → ℚ → ℚ) (b : PERBufferSumTree α) (pairs : List (ℕ × ℚ)),
      2 ≤ b.tree.capacity →
      (∀ pr ∈ pairs, b.tree.capacity - 1 ≤ pr.1 ∧ pr.1 ≤ 2 * b.tree.capacity - 2) →
      (pairs.map Prod.fst).Nodup →
      (∀ pr ∈ pairs, (b.update_priorities pw pairs).tree.tree pr.1 =
        pw (|pr.2| + b.epsilon) b.alpha) ∧
      (b.update_priorities pw pairs).max_priority =
        (pairs.map fun pr => pw (|pr.2| + b.epsilon) b.alpha).foldl max b.max_priority) := by
  constructor
  · intro α b pairs hin hnd
    obtain ⟨h1, h2, h3⟩ := flatUP_values pairs b hin hnd
    refine ⟨h1, fun pr hpr => ⟨h2 pr hpr, ?_, min_le_right _ _⟩, h3⟩
    exact le_min (le_add_of_nonneg_left (abs_nonneg _)) (by norm_num)
  · intro α pw b pairs hcap hin hnd
    exact treeUP_values pw pairs b hcap hin hnd

theorem C7_priority_monotonicity_witness :
    ((∀ pr ∈ [((0 : ℤ), (1 : ℚ) / 2)], 0 ≤ pr.1 ∧ pr.1 < (flatBuf4.priorities.length : ℤ)) ∧
     ([((0 : ℤ), (1 : ℚ) / 2)].map Prod.fst).Nodup ∧
     2 ≤ treeBuf4.tree.capacity ∧
     (∀ pr ∈ [((3 : ℕ), (10 : ℚ))], treeBuf4.tree.capacity - 1 ≤ pr.1 ∧
       pr.1 ≤ 2 * treeBuf4.tree.capacity - 2) ∧
     ([((3 : ℕ), (10 : ℚ))].map Prod.fst).Nodup) ∧
    (flatBuf4.update_priorities [((0 : ℤ), (1 : ℚ) / 2)]).2 = none ∧
    (treeBuf4.update_priorities pw0 [((3 : ℕ), (10 : ℚ))]).tree.tree 3 =
      pw0 (|(10 : ℚ)| + treeBuf4.epsilon) treeBuf4.alpha :=
  ⟨⟨by decide, by decide, by decide, by decide, by decide⟩,
   (C7_priority_monotonicity.1 ℚ flatBuf4 [((0 : ℤ), (1 : ℚ) / 2)]
     (by decide) (by decide)).1,
   (C7_priority_monotonicity.2 ℚ pw0 treeBuf4 [((3 : ℕ), (10 : ℚ))]
     (by decide) (by decide) (by decide)).1 ((3 : ℕ), (10 : ℚ))
     (List.mem_cons_self _ _)⟩

/-! ### The importance weights of the sum-tree sampler -/

theorem le_foldl_max (l : List ℚ) : ∀ (a : ℚ), a ≤ l.foldl max a := by
  induction l with
  | nil => intro a; exact le_refl a
  | cons b bs ih => intro a; exact le_trans (le_max_left a b) (ih (max a b))

theorem mem_le_foldl_max (l : List ℚ) : ∀ (a x : ℚ), x ∈ l → x ≤ l.foldl max a := by
  induction l with
  | nil => intro a x hx; exact absurd hx (List.not_mem_nil x)
  | cons b bs ih =>
    intro a x hx
    rcases List.mem_cons.mp hx with rfl | hx'
    · exact le_trans (le_max_right a x) (le_foldl_max bs (max a x))
    · exact ih (max a b) x hx'

theorem foldl_max_mem (l : List ℚ) : ∀ (a : ℚ), l.foldl max a ∈ a :: l := by
  induction l with
  | nil => intro a; exact List.mem_cons_self a []
  | cons b bs ih =>
    intro a
    rcases List.mem_cons.mp (ih (max a b)) with heq | hmem
    · rw [List.foldl_cons, heq]
      rcases max_choice a b with hab | hab
      · rw [hab]; exact List.mem_cons_self _ _
      · rw [hab]; exact List.mem_cons_of_mem _ (List.mem_cons_self _ _)
    · rw [List.foldl_cons]
      exact List.mem_cons_of_mem _ (List.mem_cons_of_mem _ hmem)

theorem le_npMax {l : List ℚ} {x : ℚ} (h : x ∈ l) : x ≤ npMax l := by
  cases l with
  | nil => exact absurd h (List.not_mem_nil x)
  | cons a as =>
    rcases List.mem_cons.mp h with rfl | h'
    · exact le_foldl_max as x
    · exact mem_le_foldl_max as a x h'

theorem npMax_mem {l : List ℚ} (h : l ≠ []) : npMax l ∈ l := by
  cases l with
  | nil => exact absurd rfl h
  | cons a as => exact foldl_max_mem as a

theorem foldl_max_map_div (l : List ℚ) {M : ℚ} (hM : 0 < M) :
    ∀ (a : ℚ), (l.map fun w => w / M).foldl max (a / M) = l.foldl max a / M := by
  induction l with
  | nil => intro a; rfl
  | cons b bs ih =>
    intro a
    rw [List.map_cons, List.foldl_cons, List.foldl_cons,
      max_div_div_right hM.le a b, ih (max a b)]

theorem npMax_map_div {l : List ℚ} {M : ℚ} (hM : 0 < M) (h : l ≠ []) :
    npMax (l.map fun w => w / M) = npMax l / M := by
  cases l with
  | nil => exact absurd rfl h
  | cons a as =>
    rw [List.map_cons]
    exact foldl_max_map_div as hM a

/-- C6: for the sum-tree variant - the only priority sampler whose `sample`
can return at all - the weight vector `(n_entries * P_norm) ** (-beta)`,
normalized by its exact batch maximum, has maximum exactly 1 and all
entries strictly positive, whenever the batch is nonempty, the total mass
and the collected priorities are positive, and the power function maps
positives to positives.  The flat-array variant's `sample` never returns
(`TypeError` at the `randint` call), so the claim's flat half is vacuous:
there are no successful flat sample calls. -/
theorem C6_weight_normalization :
    (∀ (pw : ℚ → ℚ → ℚ) (n : ℕ) (total beta : ℚ) (ps : List ℚ),
      ps ≠ [] → 0 < total → (∀ p ∈ ps, 0 < p) → 0 < n →
      (∀ x : ℚ, 0 < x → 0 < pw x (-beta)) →
      npMax (sumTreeWeights pw n total beta ps) = 1 ∧
      (∀ w ∈ sumTreeWeights pw n total beta ps, 0 < w)) ∧
    (∀ (α : Type) (pw : ℚ → ℚ → ℚ) (b : PrioritizedReplayBuffer α) (k : ℕ) (beta : ℚ),
      PrioritizedReplayBuffer.sample pw b k beta = .error .typeError) := by
  constructor
  · intro pw n total beta ps hne htotal hpos hn hpw
    have hwpos : ∀ w ∈ (ps.map fun p => p / total).map fun x => pw ((n : ℚ) * x) (-beta),
        0 < w := by
      intro w hw
      obtain ⟨x, hx, rfl⟩ := List.mem_map.mp hw
      obtain ⟨p, hp, rfl⟩ := List.mem_map.mp hx
      refine hpw _ ?_
      have hp' := hpos p hp
      have hn' : (0 : ℚ) < n := by exact_mod_cast hn
      positivity
    have hwne : ((ps.map fun p => p / total).map fun x => pw ((n : ℚ) * x) (-beta)) ≠ [] := by
      intro hc
      apply hne
      simpa using congrArg List.length hc
    have hMpos : 0 < npMax ((ps.map fun p => p / total).map fun x => pw ((n : ℚ) * x) (-beta)) :=
      hwpos _ (npMax_mem hwne)
    constructor
    · rw [sumTreeWeights, npMax_map_div hMpos hwne, div_self (ne_of_gt hMpos)]
    · intro w hw
      rw [sumTreeWeights] at hw
      obtain ⟨v, hv, rfl⟩ := List.mem_map.mp hw
      exact div_pos (hwpos v hv) hMpos
  · intro α pw b k beta
    rfl

theorem C6_weight_normalization_witness :
    ((([1, 1] : List ℚ) ≠ [] ∧ (0 : ℚ) < 4 ∧ (∀ p ∈ ([1, 1] : List ℚ), 0 < p) ∧
      0 < 4 ∧ (∀ x : ℚ, 0 < x → 0 < pw0 x (-(2 / 5)))) ∧
     (npMax (sumTreeWeights pw0 4 4 (2 / 5) [1, 1]) = 1 ∧
      (∀ w ∈ sumTreeWeights pw0 4 4 (2 / 5) [1, 1], 0 < w))) :=
  ⟨⟨by simp, by norm_num, by norm_num, by norm_num, fun x hx => hx⟩,
   C6_weight_normalization.1 pw0 4 4 (2 / 5) [1, 1] (by simp) (by norm_num)
     (by norm_num) (by norm_num) (fun x hx => hx)⟩

/-! ### Reachable-state invariants: the max-priority floor -/

theorem npSet_some {l : List ℚ} {i : ℤ} {v : ℚ} {ps : List ℚ}
    (h : npSet l i v = some ps) : ∃ n, n < l.length ∧ ps = l.set n v := by
  rw [npSet] at h
  split at h
  · rename_i hc
    refine ⟨i.toNat, by omega, ?_⟩
    injection h with h
    exact h.symm
  · split at h
    · rename_i hc
      refine ⟨((l.length : ℤ) + i).toNat, by omega, ?_⟩
      injection h with h
      exact h.symm
    · cases h

theorem getD_set_bound {l : List ℚ} {n : ℕ} {v : ℚ} (hv : 1 / 1000000 ≤ v) (s : ℕ)
    (hs : 1 / 1000000 ≤ l.getD s 0) : 1 / 1000000 ≤ (l.set n v).getD s 0 := by
  by_cases hns : n = s
  · subst hns
    by_cases hlen : n < l.length
    · rw [getD_set_self l n v hlen]
      exact hv
    · rw [List.set_eq_of_length_le (by omega)]
      exact hs
  · rw [getD_set_ne l v hns]
    exact hs

theorem flatUP_preserves (pairs : List (ℤ × ℚ)) :
    ∀ (b : PrioritizedReplayBuffer α),
      (b.update_priorities pairs).1.capacity = b.capacity ∧
      (b.update_priorities pairs).1.size = b.size ∧
      (b.update_priorities pairs).1.position = b.position ∧
      (b.update_priorities pairs).1.alpha = b.alpha ∧
      (b.update_priorities pairs).1.priorities.length = b.priorities.length ∧
      b.max_priority ≤ (b.update_priorities pairs).1.max_priority ∧
      (∀ s, 1 / 1000000 ≤ b.priorities.getD s 0 →
        1 / 1000000 ≤ (b.update_priorities pairs).1.priorities.getD s 0) := by
  induction pairs with
  | nil => intro b; exact ⟨rfl, rfl, rfl, rfl, rfl, le_refl _, fun _ h => h⟩
  | cons pr0 rest ih =>
    intro b
    obtain ⟨i, e⟩ := pr0
    rw [PrioritizedReplayBuffer.update_priorities]
    cases hset : npSet b.priorities i (min (|e| + 1 / 1000000) 1) with
    | none =>
      exact ⟨rfl, rfl, rfl, rfl, rfl, le_refl _, fun _ h => h⟩
    | some ps =>
      obtain ⟨n, hn, rfl⟩ := npSet_some hset
      obtain ⟨g1, g2, g3, g4, g5, g6, g7⟩ := ih
        { b with priorities := b.priorities.set n (min (|e| + 1 / 1000000) 1)
                 max_priority := max b.max_priority (min (|e| + 1 / 1000000) 1) }
      refine ⟨g1, g2, g3, g4, ?_, le_trans (le_max_left _ _) g6, ?_⟩
      · rw [g5]
        exact List.length_set b.priorities n _
      · intro s hs
        refine g7 s ?_
        exact getD_set_bound (le_min (le_add_of_nonneg_left (abs_nonneg _)) (by norm_num)) s hs

theorem mem_take_getD (l : List ℚ) (n : ℕ) (p : ℚ) :
    p ∈ l.take n → ∃ i, i < n ∧ i < l.length ∧ l.getD i 0 = p := by
  induction l generalizing n with
  | nil => intro hp; simp at hp
  | cons a as ih =>
    intro hp
    cases n with
    | zero => simp at hp
    | succ n =>
      rw [List.take_succ_cons] at hp
      rcases List.mem_cons.mp hp with rfl | hp'
      · exact ⟨0, by omega, by simp, rfl⟩
      · obtain ⟨i, h1, h2, h3⟩ := ih n hp'
        exact ⟨i + 1, by omega, by simpa using h2, by simpa using h3⟩

theorem flatReach_invariant {N : ℕ} {a : ℚ} {d : α} {b : PrioritizedReplayBuffer α}
    (hb : FlatReach N a d b) :
    1 ≤ b.max_priority ∧
    b.capacity = N ∧
    b.alpha = a ∧
    b.priorities.length = N ∧
    b.size ≤ N ∧
    b.position < N ∧
    (b.size < N → b.position = b.size) ∧
    (∀ s, s < b.size → 1 / 1000000 ≤ b.priorities.getD s 0) := by
  induction hb with
  | init h1 =>
    exact ⟨le_refl 1, rfl, rfl, List.length_replicate N 0, Nat.zero_le N, h1,
      fun _ => rfl, fun s hs => absurd hs (Nat.not_lt_zero s)⟩
  | push x hb ih =>
    obtain ⟨hmax, hcap, halpha, hlen, hsize, hpos, hps, hbound⟩ := ih
    rename_i bp
    have hidx : bp.position % bp.capacity = bp.position := by
      rw [hcap]; exact Nat.mod_eq_of_lt hpos
    refine ⟨hmax, hcap, halpha, ?_, ?_, ?_, ?_, ?_⟩
    · show (bp.priorities.set (bp.position % bp.capacity) bp.max_priority).length = N
      rw [List.length_set]
      exact hlen
    · show min (bp.size + 1) bp.capacity ≤ N
      rw [hcap]; omega
    · show (bp.position + 1) % bp.capacity < N
      rw [hcap]; exact Nat.mod_lt _ (by omega)
    · intro hlt
      show (bp.position + 1) % bp.capacity = min (bp.size + 1) bp.capacity
      have hlt' : min (bp.size + 1) bp.capacity < N := hlt
      rw [hcap] at hlt' ⊢
      have h1 : bp.size + 1 < N := by omega
      rw [hps (by omega), Nat.mod_eq_of_lt (by omega)]
      omega
    · intro s hs
      show 1 / 1000000 ≤
        (bp.priorities.set (bp.position % bp.capacity) bp.max_priority).getD s 0
      have hs' : s < min (bp.size + 1) bp.capacity := hs
      rw [hcap] at hs'
      by_cases hsp : s = bp.position % bp.capacity
      · subst hsp
        rw [getD_set_self _ _ _ (by rw [hidx, hlen]; omega)]
        exact le_trans (by norm_num) hmax
      · rw [getD_set_ne _ _ (fun hc => hsp hc.symm)]
        apply hbound
        rcases Nat.lt_or_ge s bp.size with h | h
        · exact h
        · exfalso
          have hseq : s = bp.size := by omega
          have hltN : bp.size < N := by omega
          exact hsp (by rw [hidx, hps hltN, hseq])
  | update pairs hb ih =>
    obtain ⟨hmax, hcap, halpha, hlen, hsize, hpos, hps, hbound⟩ := ih
    rename_i bp
    obtain ⟨g1, g2, g3, g4, g5, g6, g7⟩ := flatUP_preserves pairs bp
    refine ⟨le_trans hmax g6, by rw [g1]; exact hcap, by rw [g4]; exact halpha,
      by rw [g5]; exact hlen, by rw [g2]; exact hsize, by rw [g3]; exact hpos,
      ?_, ?_⟩
    · intro hlt
      rw [g2] at hlt ⊢
      rw [g3]
      exact hps hlt
    · intro s hs
      rw [g2] at hs
      exact g7 s (hbound s hs)

theorem treeUP_preserves (pw : ℚ → ℚ → ℚ) (pairs : List (ℕ × ℚ)) :
    ∀ (b : PERBufferSumTree α),
      (b.update_priorities pw pairs).tree.capacity = b.tree.capacity ∧
      (b.update_priorities pw pairs).alpha = b.alpha ∧
      (b.update_priorities pw pairs).epsilon = b.epsilon ∧
      b.max_priority ≤ (b.update_priorities pw pairs).max_priority := by
  induction pairs with
  | nil => intro b; exact ⟨rfl, rfl, rfl, le_refl _⟩
  | cons pr0 rest ih =>
    intro b
    obtain ⟨i, e⟩ := pr0
    rw [PERBufferSumTree.update_priorities]
    obtain ⟨g1, g2, g3, g4⟩ := ih
      { b with tree := b.tree.update i (pw (|e| + b.epsilon) b.alpha)
               max_priority := max b.max_priority (pw (|e| + b.epsilon) b.alpha) }
    exact ⟨g1, g2, g3, le_trans (le_max_left _ _) g4⟩

theorem treeReach_invariant {pw : ℚ → ℚ → ℚ} {N : ℕ} {a : ℚ} {b : PERBufferSumTree α}
    (hb : TreeReach pw N a b) :
    2 ≤ N ∧ b.tree.capacity = N ∧ b.alpha = a ∧ 1 ≤ b.max_priority := by
  induction hb with
  | init h => exact ⟨h, rfl, rfl, le_refl 1⟩
  | push x hb ih => exact ih
  | update pairs hb hin ih =>
    rename_i bp
    obtain ⟨h1, h2, h3, h4⟩ := ih
    obtain ⟨g1, g2, _, g4⟩ := treeUP_preserves pw pairs bp
    exact ⟨h1, by rw [g1]; exact h2, by rw [g2]; exact h3, le_trans h4 g4⟩

/-- C10: in both priority variants `max_priority` starts at 1 and never
decreases under push or `update_priorities` (`sample` mutates nothing in
either variant), so `max_priority ≥ 1` holds at every reachable state;
every push stamps the newly written slot with the current `max_priority`
(hence a value ≥ 1); and in the flat variant the summed powered
priorities over the occupied slots are nonzero whenever any slot is
occupied - so the zero-total uniform fallback cannot be reached through
the public API. -/
theorem C10_max_priority_floor :
    (∀ (α : Type) (N : ℕ) (a : ℚ) (d : α) (b : PrioritizedReplayBuffer α),
      FlatReach N a d b →
      1 ≤ b.max_priority ∧
      (∀ x, b.max_priority ≤ (b.push x).max_priority) ∧
      (∀ pairs, b.max_priority ≤ (b.update_priorities pairs).1.max_priority) ∧
      (∀ x : α, (b.push x).priorities.getD (b.position % b.capacity) 0 = b.max_priority) ∧
      (∀ pw : ℚ → ℚ → ℚ, (∀ x, 0 < x → 0 < pw x a) → 0 < b.size →
        ((b.priorities.take b.size).map fun p => pw p b.alpha).sum ≠ 0)) ∧
    (∀ (α : Type) (pw : ℚ → ℚ → ℚ) (N : ℕ) (a : ℚ) (b : PERBufferSumTree α),
      TreeReach pw N a b →
      1 ≤ b.max_priority ∧
      (∀ x, b.max_priority ≤ (b.push x).max_priority) ∧
      (∀ pairs, b.max_priority ≤ (b.update_priorities pw pairs).max_priority) ∧
      (∀ x : α, (b.push x).tree.tree (b.tree.write + b.tree.capacity - 1) =
        b.max_priority)) := by
  constructor
  · intro α N a d b hb
    obtain ⟨hmax, hcap, halpha, hlen, hsize, hpos, hps, hbound⟩ := flatReach_invariant hb
    refine ⟨hmax, fun x => le_refl _, fun pairs => (flatUP_preserves pairs b).2.2.2.2.2.1,
      ?_, ?_⟩
    · intro x
      show (b.priorities.set (b.position % b.capacity) b.max_priority).getD
        (b.position % b.capacity) 0 = b.max_priority
      have hidx : b.position % b.capacity = b.position := by
        rw [hcap]; exact Nat.mod_eq_of_lt hpos
      exact getD_set_self _ _ _ (by rw [hidx, hlen]; omega)
    · intro pw hpw hocc
      have hele : ∀ q ∈ (b.priorities.take b.size).map fun p => pw p b.alpha, 0 < q := by
        intro q hq
        obtain ⟨p, hp, rfl⟩ := List.mem_map.mp hq
        obtain ⟨i, hi1, hi2, hi3⟩ := mem_take_getD b.priorities b.size p hp
        have hppos : 0 < p := lt_of_lt_of_le (by norm_num) (hi3 ▸ hbound i hi1)
        rw [halpha]
        exact hpw p hppos
      have hne : ((b.priorities.take b.size).map fun p => pw p b.alpha) ≠ [] := by
        apply List.ne_nil_of_length_pos
        rw [List.length_map, List.length_take]
        omega
      exact ne_of_gt (List.sum_pos _ hele hne)
  · intro α pw N a b hb
    obtain ⟨hN, hcap, halpha, hmax⟩ := treeReach_invariant hb
    refine ⟨hmax, fun x => le_refl _, fun pairs => (treeUP_preserves pw pairs b).2.2.2, ?_⟩
    intro x
    show updateTree b.tree.tree (b.tree.write + b.tree.capacity - 1) b.max_priority
      (b.tree.write + b.tree.capacity - 1) = b.max_priority
    exact updateTree_leaf (by omega) _ _

theorem C10_max_priority_floor_witness :
    (FlatReach 4 (3 / 5) (0 : ℚ) (PrioritizedReplayBuffer.init 4 (3 / 5) 0) ∧
     TreeReach pw0 4 (3 / 5) (PERBufferSumTree.init 4 (3 / 5) : PERBufferSumTree ℚ)) ∧
    1 ≤ (PrioritizedReplayBuffer.init 4 (3 / 5) (0 : ℚ)).max_priority ∧
    1 ≤ (PERBufferSumTree.init 4 (3 / 5) : PERBufferSumTree ℚ).max_priority :=
  ⟨⟨FlatReach.init (by norm_num), TreeReach.init (by norm_num)⟩,
   (C10_max_priority_floor.1 ℚ 4 (3 / 5) 0 _ (FlatReach.init (by norm_num))).1,
   (C10_max_priority_floor.2 ℚ pw0 4 (3 / 5) _ (TreeReach.init (by norm_num))).1⟩
